import Mathlib

/-!
Verification development for the kokoro-openai-server streaming core
(`src/streaming.rs`, plus the duplicated sample conversion in `src/api.rs`
and the `DEFAULT_SAMPLE_RATE` constant from `src/validation.rs`).

Strings are modelled as `List Char`; Rust's `str::split_whitespace`,
`str::trim`, `String::push`/`push_str` and `[&str]::join(" ")` are given
explicit executable models below.  `f32` samples are modelled by a symbolic
type `F32` (NaN, the two infinities, and exact rational finite values);
machine integers are `Nat`/`Int` with explicit `% 2^w` where wrap-around
matters.
-/

/-- A Rust string, modelled as its character list. -/
abbrev Str := List Char

/-- Prepend a pending word in front of a word list, dropping it when empty
(helper for the `split_whitespace` model). -/
def consWord (w : Str) (ws : List Str) : List Str :=
  if w = [] then ws else w :: ws

/-- Core of the `str::split_whitespace` model: returns the whitespace-free
prefix word still being read at the front, and the completed words after it. -/
def splitWSAux : Str → Str × List Str
  | [] => ([], [])
  | c :: cs =>
    let r := splitWSAux cs
    if c.isWhitespace then ([], consWord r.1 r.2) else (c :: r.1, r.2)

/-- Model of Rust `str::split_whitespace`: the maximal whitespace-free,
non-empty words of `s`, in order. -/
def splitWS (s : Str) : List Str :=
  consWord (splitWSAux s).1 (splitWSAux s).2

/-- Model of Rust `str::trim`: drop leading and trailing whitespace. -/
def trimStr (s : Str) : Str :=
  ((s.dropWhile Char.isWhitespace).reverse.dropWhile Char.isWhitespace).reverse

/-- Model of Rust `[&str]::join(" ")`: intercalate a single space. -/
def joinSpace : List Str → Str
  | [] => []
  | [w] => w
  | w :: v :: ws => w ++ ' ' :: joinSpace (v :: ws)

/-- Model of Rust `str::ends_with(char)`. -/
def endsWithChar (w : Str) (c : Char) : Bool :=
  match w.getLast? with
  | some d => d = c
  | none => false

/-- Model of Rust `str::to_lowercase` (ASCII-relevant part). -/
def toLowerStr (w : Str) : Str := w.map Char.toLower

/-- `BREAK_WORDS` from `src/streaming.rs` line 9. -/
def BREAK_WORDS : List Str :=
  ["and".toList, "or".toList, "but".toList, "&".toList, "because".toList,
   "if".toList, "since".toList, "though".toList, "although".toList,
   "however".toList, "which".toList]

/-- `is_numbered_list_item` from `src/streaming.rs` lines 274-278: matcher for
the regex `^\(?[0-9]+[.\)\:],?$` (optional `(`, one or more digits, one of
`.`/`)`/`:`, optional trailing `,`). -/
def is_numbered_list_item (w : Str) : Bool :=
  let s := match w with
    | '(' :: rest => rest
    | _ => w
  let ds := s.takeWhile Char.isDigit
  let rest := s.dropWhile Char.isDigit
  !ds.isEmpty &&
    (match rest with
     | [p] => p = '.' || p = ')' || p = ':'
     | [p, q] => (p = '.' || p = ')' || p = ':') && q = ','
     | _ => false)

/-- State of the pass-1 loop of `split_text_into_speech_chunks`
(lines 201-203): emitted chunks, the current buffer, and its word count. -/
structure Pass1State where
  chunks : List Str
  current_chunk : Str
  word_count : Nat
deriving DecidableEq

/-- The `chunks.push(trimmed)`-guarded-by-nonempty idiom
(lines 213-215, 235-237, 244-246). -/
def pushTrimmed (chunks : List Str) (cur : Str) : List Str :=
  if trimStr cur = [] then chunks else chunks ++ [trimStr cur]

/-- One iteration of the pass-1 word loop of `split_text_into_speech_chunks`
(`src/streaming.rs` lines 205-242). -/
def pass1Step (words_per_chunk : Nat) (st : Pass1State) (word : Str) : Pass1State :=
  let cur0 := if st.current_chunk.isEmpty then st.current_chunk else st.current_chunk ++ [' ']
  let is_numbered_break := is_numbered_list_item word
  let st1 : Pass1State :=
    if is_numbered_break && !cur0.isEmpty then
      ⟨pushTrimmed st.chunks cur0, [], 0⟩
    else ⟨st.chunks, cur0, st.word_count⟩
  let cur1 := st1.current_chunk ++ word
  let word_count := st1.word_count + 1
  let ends_with_unconditional := endsWithChar word '.' || endsWithChar word '!' ||
    endsWithChar word '?' || endsWithChar word ':' || endsWithChar word ';'
  let ends_with_conditional := endsWithChar word ','
  if ends_with_unconditional || is_numbered_break ||
      (ends_with_conditional && decide (word_count ≥ words_per_chunk)) then
    ⟨pushTrimmed st1.chunks cur1, [], 0⟩
  else ⟨st1.chunks, cur1, word_count⟩

/-- The pass-1 word loop, folded over the words of the input. -/
def pass1Loop (words_per_chunk : Nat) : Pass1State → List Str → Pass1State
  | st, [] => st
  | st, w :: ws => pass1Loop words_per_chunk (pass1Step words_per_chunk st w) ws

/-- Pass 1 of `split_text_into_speech_chunks` (lines 201-246): primary split
at sentence punctuation, numbered-list items, and long comma boundaries. -/
def pass1 (text : Str) (words_per_chunk : Nat) : List Str :=
  let st := pass1Loop words_per_chunk ⟨[], [], 0⟩ (splitWS text)
  pushTrimmed st.chunks st.current_chunk

/-- `usize::MAX` (64-bit), the initial `min_distance` in the closest-split
searches (lines 346, 363). -/
def USIZE_MAX : Nat := 18446744073709551615

/-- Loop of `find_closest_punctuation` (lines 344-359) with `punctuation`
fixed to `[","]` as at the sole call site: tracks best index (stored as
`i + 1`) and minimal distance, replacing only on strictly smaller distance. -/
def fcpLoop (center : Nat) : List Str → Nat → Option Nat → Nat → Option Nat
  | [], _, best, _ => best
  | w :: rest, i, best, minD =>
    if endsWithChar w ',' then
      let d := if i < center then center - i else i - center
      if d < minD then fcpLoop center rest (i + 1) (some (i + 1)) d
      else fcpLoop center rest (i + 1) best minD
    else fcpLoop center rest (i + 1) best minD

/-- `find_closest_punctuation` from `src/streaming.rs` lines 344-359. -/
def find_closest_punctuation (words : List Str) (center : Nat) : Option Nat :=
  fcpLoop center words 0 none USIZE_MAX

/-- Loop of `find_closest_break_word` (lines 361-376): best index is stored
as `i` itself. -/
def fcbLoop (center : Nat) : List Str → Nat → Option Nat → Nat → Option Nat
  | [], _, best, _ => best
  | w :: rest, i, best, minD =>
    if toLowerStr w ∈ BREAK_WORDS then
      let d := if i < center then center - i else i - center
      if d < minD then fcbLoop center rest (i + 1) (some i) d
      else fcbLoop center rest (i + 1) best minD
    else fcbLoop center rest (i + 1) best minD

/-- `find_closest_break_word` from `src/streaming.rs` lines 361-376. -/
def find_closest_break_word (words : List Str) (center : Nat) : Option Nat :=
  fcbLoop center words 0 none USIZE_MAX

/-- `split_long_chunk_with_depth` (lines 280-342), written with explicit fuel
`3 - depth`: the source recursion adds exactly 1 to `depth` at each recursive
call and returns the chunk unchanged once `depth >= 3`, so the remaining
allowance `3 - depth` decreases structurally. -/
def split_long_chunk_go : Nat → Str → Nat → Bool → List Str
  | 0, chunk, _, _ => [chunk]
  | fuel + 1, chunk, threshold, use_punctuation =>
    let words := splitWS chunk
    if words.length < threshold then [chunk]
    else
      let center := words.length / 2
      let punct_pos : Option Nat :=
        if use_punctuation then
          match find_closest_punctuation words center with
          | some pos => if 3 ≤ pos ∧ pos < words.length then some pos else none
          | none => none
        else none
      match punct_pos with
      | some pos =>
        split_long_chunk_go fuel (joinSpace (words.take pos)) threshold use_punctuation ++
          split_long_chunk_go fuel (joinSpace (words.drop pos)) threshold use_punctuation
      | none =>
        match find_closest_break_word words center with
        | some pos =>
          if 3 ≤ pos ∧ pos < words.length then
            split_long_chunk_go fuel (joinSpace (words.take pos)) threshold use_punctuation ++
              split_long_chunk_go fuel (joinSpace (words.drop pos)) threshold use_punctuation
          else [chunk]
        | none => [chunk]

/-- `split_long_chunk_with_depth` from `src/streaming.rs` lines 280-342. -/
def split_long_chunk_with_depth (chunk : Str) (threshold : Nat)
    (use_punctuation : Bool) (depth : Nat) : List Str :=
  split_long_chunk_go (3 - depth) chunk threshold use_punctuation

/-- Pass 2 of `split_text_into_speech_chunks` (lines 248-254): rebalance each
pass-1 chunk, with comma-preference only for the first two chunks. -/
def pass2Go : Nat → List Str → List Str
  | _, [] => []
  | index, chunk :: rest =>
    split_long_chunk_with_depth chunk 12 (decide (index < 2)) 0 ++ pass2Go (index + 1) rest

/-- One step of the pass-3 carry-over loop (lines 256-268), starting from the
chunk at the loop cursor: a trailing break word (when the chunk has more than
one word) is moved to the front of the following chunk, which is then
processed as the next cursor position. -/
def carryOverStep : Str → List Str → List Str
  | c, [] => [c]
  | c, next :: rest =>
    let words := splitWS (trimStr c)
    match words.getLast? with
    | some last_word =>
      if toLowerStr last_word ∈ BREAK_WORDS ∧ words.length > 1 then
        joinSpace words.dropLast :: carryOverStep (last_word ++ ' ' :: next) rest
      else c :: carryOverStep next rest
    | none => c :: carryOverStep next rest

/-- Pass 3 of `split_text_into_speech_chunks` (lines 256-268). -/
def carryOverAll : List Str → List Str
  | [] => []
  | c :: rest => carryOverStep c rest

/-- `split_text_into_speech_chunks` from `src/streaming.rs` lines 200-272. -/
def split_text_into_speech_chunks (text : Str) (words_per_chunk : Nat) : List Str :=
  let chunks := pass1 text words_per_chunk
  let final_chunks := carryOverAll (pass2Go 0 chunks)
  final_chunks.filter (fun c => !(trimStr c).isEmpty)

/-- `chunk_text` from `src/streaming.rs` lines 192-198. -/
def chunk_text (text : Str) : List Str :=
  let chunks := split_text_into_speech_chunks text 10
  if chunks.isEmpty && !(trimStr text).isEmpty then [trimStr text] else chunks

/-! ## Audio encoder (`src/streaming.rs` lines 378-430, `src/api.rs` lines 72-80) -/

/-- Symbolic model of an `f32` sample: NaN, the infinities, or an exact
finite value modelled as a rational. -/
inductive F32 where
  | nan : F32
  | posInf : F32
  | negInf : F32
  | fin : ℚ → F32
deriving DecidableEq

/-- Model of Rust `f32::clamp(lo, hi)` for finite `lo ≤ hi`: NaN propagates,
infinities clamp to the corresponding bound. -/
def F32.clamp : F32 → ℚ → ℚ → F32
  | .nan, _, _ => .nan
  | .posInf, _, hi => .fin hi
  | .negInf, lo, _ => .fin lo
  | .fin q, lo, hi => .fin (max lo (min hi q))

/-- Model of the Rust comparison `x <= q` against a finite constant:
false when `x` is NaN. -/
def F32.leQ : F32 → ℚ → Bool
  | .nan, _ => false
  | .posInf, _ => false
  | .negInf, _ => true
  | .fin r, q => decide (r ≤ q)

/-- Model of multiplication by a positive finite constant. -/
def F32.mulQ : F32 → ℚ → F32
  | .nan, _ => .nan
  | .posInf, _ => .posInf
  | .negInf, _ => .negInf
  | .fin r, q => .fin (r * q)

/-- Rounding half away from zero, the semantics of Rust `f32::round`. -/
def roundHalfAway (q : ℚ) : ℤ :=
  if 0 ≤ q then ⌊q + 1 / 2⌋ else -⌊-q + 1 / 2⌋

/-- Model of Rust `f32::round`. -/
def F32.roundF : F32 → F32
  | .fin q => .fin ((roundHalfAway q : ℤ) : ℚ)
  | x => x

/-- Truncation toward zero (the fractional-discarding step of an `as`
float-to-int cast). -/
def ratTrunc (q : ℚ) : ℤ :=
  if 0 ≤ q then ⌊q⌋ else ⌈q⌉

/-- Model of the Rust cast `as i16` on an `f32`: saturating, NaN to 0. -/
def F32.toI16 : F32 → ℤ
  | .nan => 0
  | .posInf => 32767
  | .negInf => -32768
  | .fin q => max (-32768) (min 32767 (ratTrunc q))

/-- `pcm_i16_from_f32` from `src/streaming.rs` lines 390-397 (the identical
function also appears in `src/api.rs` lines 72-80). -/
def pcm_i16_from_f32 (sample : F32) : ℤ :=
  let clamped := sample.clamp (-1) 1
  if clamped.leQ (-1) then -32768
  else ((clamped.mulQ 32767).roundF).toI16

/-- Two's-complement little-endian byte pair of an `i16` value
(`i16::to_le_bytes`). -/
def i16ToLE (v : ℤ) : List Nat :=
  let u := (v % 65536).toNat
  [u % 256, u / 256]

/-- `samples_to_pcm_bytes` from `src/streaming.rs` lines 379-388. -/
def samples_to_pcm_bytes (samples : List F32) : List Nat :=
  samples.flatMap (fun s => i16ToLE (pcm_i16_from_f32 s))

/-- ASCII byte values of a literal (for the RIFF magic strings). -/
def asciiCodes (s : String) : List Nat := s.toList.map Char.toNat

/-- `u16::to_le_bytes` on a value already reduced into `u16` range. -/
def u16le (n : Nat) : List Nat := [n % 256, n / 256 % 256]

/-- `u32::to_le_bytes` on a value already reduced into `u32` range. -/
def u32le (n : Nat) : List Nat :=
  [n % 256, n / 256 % 256, n / 65536 % 256, n / 16777216 % 256]

/-- `create_wav_header_placeholder` from `src/streaming.rs` lines 400-430.
The two products are reduced `% 2^32` and `% 2^16`: they are computed in
`u32` and `u16` arithmetic in the source. -/
def create_wav_header_placeholder (sample_rate bits_per_sample num_channels : Nat) : List Nat :=
  let byte_rate := (sample_rate * num_channels * (bits_per_sample / 8)) % 4294967296
  let block_align := (num_channels * (bits_per_sample / 8)) % 65536
  asciiCodes "RIFF" ++ u32le 4294967295 ++ asciiCodes "WAVE" ++
    asciiCodes "fmt " ++ u32le 16 ++ u16le 1 ++ u16le num_channels ++
    u32le sample_rate ++ u32le byte_rate ++ u16le block_align ++
    u16le bits_per_sample ++ asciiCodes "data" ++ u32le 4294967295

/-- Read a little-endian `u32` field of a byte list at a given offset. -/
def readU32le (bs : List Nat) (off : Nat) : Nat :=
  bs.getD off 0 + 256 * bs.getD (off + 1) 0 + 65536 * bs.getD (off + 2) 0 +
    16777216 * bs.getD (off + 3) 0

/-- Read a little-endian `u16` field of a byte list at a given offset. -/
def readU16le (bs : List Nat) (off : Nat) : Nat :=
  bs.getD off 0 + 256 * bs.getD (off + 1) 0

/-! ## Stream orchestration (`src/streaming.rs` lines 13-189)

The producer task is sequential per request: it walks the chunks in order,
calls the engine once per chunk, and enqueues one frame per call, stopping
after the first failure.  The consumer-visible frame sequence of a stream is
therefore the deterministic list computed below.  The engine oracle is
indexed by the chunk index (the calls happen strictly in that order) and
receives exactly the arguments of `backend.synthesize`. -/

/-- `DEFAULT_SAMPLE_RATE` from `src/validation.rs` line 25. -/
def DEFAULT_SAMPLE_RATE : Nat := 24000

/-- The engine's per-call result (`backend.synthesize`): float samples plus
the engine-reported sample rate. -/
structure Audio where
  samples : List F32
  sample_rate : Nat
deriving DecidableEq

/-- A frame enqueued on the stream channel: `Ok(Bytes)` or `Err(io::Error)`
carrying a message. -/
inductive Frame where
  | bytes : List Nat → Frame
  | error : Str → Frame
deriving DecidableEq

/-- The synthesis-engine oracle: chunk index, chunk text, voice, speed,
initial-silence argument. -/
abbrev Engine := Nat → Str → Str → F32 → Option Nat → Except Str Audio

/-- The message of the terminal error frame
(`format!("Synthesis failed: {}", e)`). -/
def synthFailMsg (e : Str) : Str := "Synthesis failed: ".toList ++ e

/-- The synthesis loop shared by `create_pcm_stream` (lines 36-74) and
`create_wav_stream` (lines 133-172): the first component is the frame
sequence enqueued, the second the trace of `(chunk, chunk_silence)` arguments
passed to `backend.synthesize`. -/
def streamLoop (engine : Engine) (voice : Str) (speed : F32)
    (initial_silence : Option Nat) : Nat → List Str → List Frame × List (Str × Option Nat)
  | _, [] => ([], [])
  | idx, chunk :: rest =>
    let chunk_silence := if idx = 0 then initial_silence else none
    match engine idx chunk voice speed chunk_silence with
    | .ok audio =>
      let r := streamLoop engine voice speed initial_silence (idx + 1) rest
      (.bytes (samples_to_pcm_bytes audio.samples) :: r.1, (chunk, chunk_silence) :: r.2)
    | .error e => ([.error (synthFailMsg e)], [(chunk, chunk_silence)])

/-- Frame sequence of `create_pcm_stream` (`src/streaming.rs` lines 14-90). -/
def create_pcm_stream (engine : Engine) (text voice : Str) (speed : F32)
    (initial_silence : Option Nat) : List Frame :=
  (streamLoop engine voice speed initial_silence 0 (chunk_text text)).1

/-- Trace of engine calls made by `create_pcm_stream`. -/
def create_pcm_stream_calls (engine : Engine) (text voice : Str) (speed : F32)
    (initial_silence : Option Nat) : List (Str × Option Nat) :=
  (streamLoop engine voice speed initial_silence 0 (chunk_text text)).2

/-- Frame sequence of `create_wav_stream` (`src/streaming.rs` lines 93-189):
the 44-byte placeholder header (built from `DEFAULT_SAMPLE_RATE`,
`BITS_PER_SAMPLE = 16`, `NUM_CHANNELS = 1`) followed by the loop's frames. -/
def create_wav_stream (engine : Engine) (text voice : Str) (speed : F32)
    (initial_silence : Option Nat) : List Frame :=
  Frame.bytes (create_wav_header_placeholder DEFAULT_SAMPLE_RATE 16 1) ::
    (streamLoop engine voice speed initial_silence 0 (chunk_text text)).1

/-- Trace of engine calls made by `create_wav_stream`. -/
def create_wav_stream_calls (engine : Engine) (text voice : Str) (speed : F32)
    (initial_silence : Option Nat) : List (Str × Option Nat) :=
  (streamLoop engine voice speed initial_silence 0 (chunk_text text)).2

/-- No qualifying split point for `split_long_chunk_with_depth`: any comma
candidate (when the punctuation preference is active) and any break-word
candidate fails the `pos >= 3 && pos < words.len()` guard. -/
def noQualifyingSplit (chunk : Str) (use_punctuation : Bool) : Prop :=
  (use_punctuation = true →
    ∀ pos, find_closest_punctuation (splitWS chunk) ((splitWS chunk).length / 2) = some pos →
      ¬(3 ≤ pos ∧ pos < (splitWS chunk).length)) ∧
  (∀ pos, find_closest_break_word (splitWS chunk) ((splitWS chunk).length / 2) = some pos →
    ¬(3 ≤ pos ∧ pos < (splitWS chunk).length))

/-- A concrete engine for witnesses: succeeds with empty audio on chunk
indices 0 and 1, fails with message "boom" from index 2 on. -/
def witnessEngine : Engine :=
  fun idx _ _ _ _ => if idx < 2 then .ok ⟨[], 24000⟩ else .error "boom".toList

/-- A string containing no whitespace character. -/
def NoWS (w : Str) : Prop := ∀ c ∈ w, c.isWhitespace = false

/-- A word as produced by `split_whitespace`: non-empty and whitespace-free. -/
def GoodWord (w : Str) : Prop := w ≠ [] ∧ NoWS w

/-- `cs` is a chunk list exactly covering the word list `ws`: there is a
partition of `ws` into non-empty groups of good words whose single-space
joins are the chunks, in order. -/
def ChunksOf (cs : List Str) (ws : List Str) : Prop :=
  ∃ G : List (List Str), (∀ g ∈ G, g ≠ [] ∧ ∀ w ∈ g, GoodWord w) ∧
    G.flatten = ws ∧ cs = G.map joinSpace

/-! ## Theorems -/

example : splitWS "  Hello  world ".toList = ["Hello".toList, "world".toList] := by decide
example : chunk_text "Hello world! This is a test. How are you?".toList =
    ["Hello world!".toList, "This is a test.".toList, "How are you?".toList] := by decide
example : chunk_text "Hello world this is a test".toList =
    ["Hello world this is a test".toList] := by decide

lemma ratTrunc_intCast (r : ℤ) : ratTrunc (r : ℚ) = r := by
  unfold ratTrunc
  split <;> simp

lemma roundHalfAway_le_of_le (q : ℚ) (h : q ≤ 32767) : roundHalfAway q ≤ 32767 := by
  unfold roundHalfAway
  split
  · have h32 : ⌊q + 1 / 2⌋ < (32768 : ℤ) := by
      rw [Int.floor_lt]
      push_cast
      linarith
    omega
  · rename_i hq
    have h0 : (0 : ℤ) ≤ ⌊-q + 1 / 2⌋ := by
      rw [Int.le_floor]
      push_cast
      linarith
    omega

lemma roundHalfAway_ge_of_gt (q : ℚ) (h : -32767 < q) : -32767 ≤ roundHalfAway q := by
  unfold roundHalfAway
  split
  · rename_i hq
    have h0 : (0 : ℤ) ≤ ⌊q + 1 / 2⌋ := by
      rw [Int.le_floor]
      push_cast
      linarith
    omega
  · have h32 : ⌊-q + 1 / 2⌋ < (32768 : ℤ) := by
      rw [Int.floor_lt]
      push_cast
      linarith
    omega

lemma pcm_fin_in_range (q : ℚ) (h1 : -1 < q) (h2 : q ≤ 1) :
    pcm_i16_from_f32 (F32.fin q) = roundHalfAway (q * 32767) := by
  have hclamp : max (-1 : ℚ) (min 1 q) = q := by
    rw [min_eq_right h2, max_eq_right h1.le]
  have hle : ¬(q ≤ -1) := not_le.mpr h1
  have hup : q * 32767 ≤ 32767 := by nlinarith
  have hlo : -32767 < q * 32767 := by nlinarith
  have hub := roundHalfAway_le_of_le (q * 32767) hup
  have hlb := roundHalfAway_ge_of_gt (q * 32767) hlo
  simp only [pcm_i16_from_f32, F32.clamp, F32.leQ, F32.mulQ, F32.roundF, F32.toI16, hclamp]
  rw [if_neg (by simpa using hle), ratTrunc_intCast]
  rw [min_eq_right hub, max_eq_right (by omega)]

lemma roundHalfAway_one_mul : roundHalfAway ((1 : ℚ) * 32767) = 32767 := by
  unfold roundHalfAway
  rw [if_pos (by norm_num)]
  norm_num

/-- Claim C5: the float-to-int16 conversion maps 1.0 to 32767, -1.0 to
-32768, 0.0 to 0; every finite out-of-range input behaves like the nearer
boundary; and every in-range value (strictly above -1.0, where the
asymmetric special case does not apply) is converted by rounding
clamped * 32767 half away from zero, not by truncation. -/
theorem pcm_conversion_spec :
    pcm_i16_from_f32 (F32.fin 1) = 32767 ∧
    pcm_i16_from_f32 (F32.fin (-1)) = -32768 ∧
    pcm_i16_from_f32 (F32.fin 0) = 0 ∧
    (∀ q : ℚ, 1 < q → pcm_i16_from_f32 (F32.fin q) = pcm_i16_from_f32 (F32.fin 1)) ∧
    (∀ q : ℚ, q < -1 → pcm_i16_from_f32 (F32.fin q) = pcm_i16_from_f32 (F32.fin (-1))) ∧
    (∀ q : ℚ, -1 < q → q ≤ 1 → pcm_i16_from_f32 (F32.fin q) = roundHalfAway (q * 32767)) := by
  have h1 : pcm_i16_from_f32 (F32.fin 1) = 32767 := by
    rw [pcm_fin_in_range 1 (by norm_num) le_rfl, roundHalfAway_one_mul]
  have hm1 : pcm_i16_from_f32 (F32.fin (-1)) = -32768 := by
    simp only [pcm_i16_from_f32, F32.clamp, F32.leQ]
    rw [if_pos]
    simp
  refine ⟨h1, hm1, ?_, ?_, ?_, pcm_fin_in_range⟩
  · rw [pcm_fin_in_range 0 (by norm_num) (by norm_num)]
    unfold roundHalfAway
    rw [if_pos (by norm_num)]
    norm_num
  · intro q hq
    have : max (-1 : ℚ) (min 1 q) = max (-1 : ℚ) (min 1 1) := by
      rw [min_eq_left hq.le, min_self]
    simp only [pcm_i16_from_f32, F32.clamp, this]
  · intro q hq
    have : max (-1 : ℚ) (min 1 q) = max (-1 : ℚ) (min 1 (-1)) := by
      rw [min_eq_right (by linarith), max_eq_left hq.le, min_eq_right (by norm_num),
        max_self]
    simp only [pcm_i16_from_f32, F32.clamp, this]

/-- Witness for C5: the hypothesized conjuncts applied at concrete inputs
2, -2 and 1/2 (the last giving round(16383.5) = 16384). -/
theorem pcm_conversion_spec_witness :
    ((1 : ℚ) < 2 ∧ (-2 : ℚ) < -1 ∧ (-1 : ℚ) < 1 / 2 ∧ (1 : ℚ) / 2 ≤ 1) ∧
    pcm_i16_from_f32 (F32.fin 2) = pcm_i16_from_f32 (F32.fin 1) ∧
    pcm_i16_from_f32 (F32.fin (-2)) = pcm_i16_from_f32 (F32.fin (-1)) ∧
    pcm_i16_from_f32 (F32.fin (1 / 2)) = roundHalfAway (1 / 2 * 32767) :=
  ⟨⟨by norm_num, by norm_num, by norm_num, by norm_num⟩,
    pcm_conversion_spec.2.2.2.1 2 (by norm_num),
    pcm_conversion_spec.2.2.2.2.1 (-2) (by norm_num),
    pcm_conversion_spec.2.2.2.2.2 (1 / 2) (by norm_num) (by norm_num)⟩

/-- Claim C10: the conversion is total on the symbolic f32 domain and treats
the non-finite values as the Rust cast does: NaN to 0, positive infinity to
i16::MAX, negative infinity to i16::MIN. -/
theorem pcm_conversion_total :
    pcm_i16_from_f32 F32.nan = 0 ∧
    pcm_i16_from_f32 F32.posInf = 32767 ∧
    pcm_i16_from_f32 F32.negInf = -32768 := by
  refine ⟨rfl, ?_, ?_⟩
  · have h : pcm_i16_from_f32 F32.posInf = pcm_i16_from_f32 (F32.fin 1) := by
      simp only [pcm_i16_from_f32, F32.clamp]
      norm_num
    rw [h, pcm_fin_in_range 1 (by norm_num) le_rfl, roundHalfAway_one_mul]
  · simp only [pcm_i16_from_f32, F32.clamp, F32.leQ]
    rw [if_pos]
    simp

/-- Claim C3 (code evaluation at the claimed input): segmentation of
"1. First item 2. Second item" returns FOUR chunks, not the two chunks
asserted by the spec and by the repository's own
`test_chunk_text_numbered_list`.  A numbered-list word such as "1." both
forces a boundary before it and — because it ends in a period and is a
numbered item — flushes immediately after it, so each marker becomes its
own chunk, detached from its item text. -/
theorem chunk_text_numbered_list_eval :
    chunk_text "1. First item 2. Second item".toList =
      ["1.".toList, "First item".toList, "2.".toList, "Second item".toList] ∧
    (chunk_text "1. First item 2. Second item".toList).length = 4 := by
  constructor <;> decide

/-- Claim C4, amended: the streaming WAV header is always exactly 44 bytes
with the RIFF/WAVE/fmt/data magic at offsets 0, 8, 12 and 36, the all-ones
placeholder in both size fields, and — since the products are computed in
u32/u16 machine arithmetic — a byte-rate field equal to
sampleRate * channels * bitsPerSample/8 reduced mod 2^32 and a block-align
field equal to channels * bitsPerSample/8 reduced mod 2^16 (equal to the
exact products whenever they fit their fields). -/
theorem wav_header_layout (sr b ch : Nat) :
    (create_wav_header_placeholder sr b ch).length = 44 ∧
    (create_wav_header_placeholder sr b ch).take 4 = asciiCodes "RIFF" ∧
    ((create_wav_header_placeholder sr b ch).drop 8).take 4 = asciiCodes "WAVE" ∧
    ((create_wav_header_placeholder sr b ch).drop 12).take 4 = asciiCodes "fmt " ∧
    ((create_wav_header_placeholder sr b ch).drop 36).take 4 = asciiCodes "data" ∧
    readU32le (create_wav_header_placeholder sr b ch) 4 = 4294967295 ∧
    readU32le (create_wav_header_placeholder sr b ch) 40 = 4294967295 ∧
    readU32le (create_wav_header_placeholder sr b ch) 28 =
      (sr * ch * (b / 8)) % 4294967296 ∧
    readU16le (create_wav_header_placeholder sr b ch) 32 =
      (ch * (b / 8)) % 65536 := by
  refine ⟨rfl, rfl, rfl, rfl, rfl, ?_, ?_, ?_, ?_⟩
  · show (create_wav_header_placeholder sr b ch).getD 4 0 +
      256 * (create_wav_header_placeholder sr b ch).getD 5 0 +
      65536 * (create_wav_header_placeholder sr b ch).getD 6 0 +
      16777216 * (create_wav_header_placeholder sr b ch).getD 7 0 = 4294967295
    rw [show (create_wav_header_placeholder sr b ch).getD 4 0 = 255 from rfl,
      show (create_wav_header_placeholder sr b ch).getD 5 0 = 255 from rfl,
      show (create_wav_header_placeholder sr b ch).getD 6 0 = 255 from rfl,
      show (create_wav_header_placeholder sr b ch).getD 7 0 = 255 from rfl]
  · show (create_wav_header_placeholder sr b ch).getD 40 0 +
      256 * (create_wav_header_placeholder sr b ch).getD 41 0 +
      65536 * (create_wav_header_placeholder sr b ch).getD 42 0 +
      16777216 * (create_wav_header_placeholder sr b ch).getD 43 0 = 4294967295
    rw [show (create_wav_header_placeholder sr b ch).getD 40 0 = 255 from rfl,
      show (create_wav_header_placeholder sr b ch).getD 41 0 = 255 from rfl,
      show (create_wav_header_placeholder sr b ch).getD 42 0 = 255 from rfl,
      show (create_wav_header_placeholder sr b ch).getD 43 0 = 255 from rfl]
  · have h28 : (create_wav_header_placeholder sr b ch).getD 28 0 =
        (sr * ch * (b / 8)) % 4294967296 % 256 := rfl
    have h29 : (create_wav_header_placeholder sr b ch).getD 29 0 =
        (sr * ch * (b / 8)) % 4294967296 / 256 % 256 := rfl
    have h30 : (create_wav_header_placeholder sr b ch).getD 30 0 =
        (sr * ch * (b / 8)) % 4294967296 / 65536 % 256 := rfl
    have h31 : (create_wav_header_placeholder sr b ch).getD 31 0 =
        (sr * ch * (b / 8)) % 4294967296 / 16777216 % 256 := rfl
    show (create_wav_header_placeholder sr b ch).getD 28 0 +
      256 * (create_wav_header_placeholder sr b ch).getD 29 0 +
      65536 * (create_wav_header_placeholder sr b ch).getD 30 0 +
      16777216 * (create_wav_header_placeholder sr b ch).getD 31 0 =
        (sr * ch * (b / 8)) % 4294967296
    rw [h28, h29, h30, h31]
    omega
  · have h32 : (create_wav_header_placeholder sr b ch).getD 32 0 =
        (ch * (b / 8)) % 65536 % 256 := rfl
    have h33 : (create_wav_header_placeholder sr b ch).getD 33 0 =
        (ch * (b / 8)) % 65536 / 256 % 256 := rfl
    show (create_wav_header_placeholder sr b ch).getD 32 0 +
      256 * (create_wav_header_placeholder sr b ch).getD 33 0 = (ch * (b / 8)) % 65536
    rw [h32, h33]
    omega

/-- Counterexample to C4 as stated: at sample rate 2^31, 16 bits, 2 channels
the exact product 2^31 * 2 * 2 = 2^33 overflows the 32-bit byte-rate field,
which stores 0 (u32 wrap-around) instead. -/
theorem wav_header_byte_rate_not_exact :
    ¬ readU32le (create_wav_header_placeholder 2147483648 16 2) 28 =
        2147483648 * 2 * (16 / 8) := by decide

/-- Claim C9: the streamed WAV header is always the fixed placeholder built
from DEFAULT_SAMPLE_RATE = 24000 Hz, 16 bits per sample and 1 channel,
independent of the engine oracle (hence of any engine-reported sample rate),
and its sample-rate, bits-per-sample and channel fields decode to those
constants. -/
theorem wav_stream_header_fixed (engine : Engine) (text voice : Str) (speed : F32)
    (initial_silence : Option Nat) :
    (create_wav_stream engine text voice speed initial_silence).head? =
      some (Frame.bytes (create_wav_header_placeholder DEFAULT_SAMPLE_RATE 16 1)) ∧
    readU32le (create_wav_header_placeholder DEFAULT_SAMPLE_RATE 16 1) 24 = 24000 ∧
    readU16le (create_wav_header_placeholder DEFAULT_SAMPLE_RATE 16 1) 34 = 16 ∧
    readU16le (create_wav_header_placeholder DEFAULT_SAMPLE_RATE 16 1) 22 = 1 :=
  ⟨rfl, by decide, by decide, by decide⟩

/-- Claim C8: the recursive chunk rebalancer terminates for every input (it
is a total function, by structural descent on the remaining depth allowance
3 - depth, which each recursive call shrinks by exactly 1), and it returns
the chunk unchanged, without recursing, whenever the starting depth has
reached 3, the chunk has fewer words than the threshold, or no qualifying
split point at position >= 3 exists. -/
theorem split_long_chunk_unchanged (chunk : Str) (threshold : Nat) (use_punctuation : Bool)
    (depth : Nat)
    (h : 3 ≤ depth ∨ (splitWS chunk).length < threshold ∨ noQualifyingSplit chunk use_punctuation) :
    split_long_chunk_with_depth chunk threshold use_punctuation depth = [chunk] := by
  unfold split_long_chunk_with_depth
  rcases h with h | h | h
  · rw [show 3 - depth = 0 by omega]
    rfl
  · cases hf : 3 - depth with
    | zero => rfl
    | succ f =>
      unfold split_long_chunk_go
      rw [if_pos h]
  · cases hf : 3 - depth with
    | zero => rfl
    | succ f =>
      unfold split_long_chunk_go
      by_cases hlen : (splitWS chunk).length < threshold
      · rw [if_pos hlen]
      · rw [if_neg hlen]
        simp only
        split
        · rename_i pos heq
          exfalso
          cases hup : use_punctuation with
          | false =>
            rw [hup] at heq
            simp at heq
          | true =>
            rw [hup] at heq
            simp only [if_true] at heq
            cases hp : find_closest_punctuation (splitWS chunk) ((splitWS chunk).length / 2) with
            | none => rw [hp] at heq; simp at heq
            | some p =>
              rw [hp] at heq
              by_cases hg : 3 ≤ p ∧ p < (splitWS chunk).length
              · exact h.1 hup p hp hg
              · have heq2 : (if 3 ≤ p ∧ p < (splitWS chunk).length then some p else none) =
                    some pos := heq
                rw [if_neg hg] at heq2
                simp at heq2
        · split
          · rename_i pos heq
            rw [if_neg (h.2 pos heq)]
          · rfl

/-- Witness for C8: the depth cap applied at a concrete chunk and depth 3. -/
theorem split_long_chunk_unchanged_witness :
    (3 ≤ 3 ∨ (splitWS "alpha beta".toList).length < 12 ∨
      noQualifyingSplit "alpha beta".toList true) ∧
    split_long_chunk_with_depth "alpha beta".toList 12 true 3 = ["alpha beta".toList] :=
  ⟨Or.inl le_rfl, split_long_chunk_unchanged _ _ _ _ (Or.inl le_rfl)⟩

lemma streamLoop_frames_fail (engine : Engine) (voice : Str) (speed : F32)
    (initial_silence : Option Nat) (audios : Nat → Audio) (e : Str) (i : Nat) :
    ∀ (cs : List Str) (idx : Nat), idx ≤ i → i - idx < cs.length →
    (∀ j, j < cs.length → idx + j < i →
      engine (idx + j) (cs.getD j []) voice speed
          (if idx + j = 0 then initial_silence else none) =
        .ok (audios (idx + j))) →
    engine i (cs.getD (i - idx) []) voice speed
        (if i = 0 then initial_silence else none) = .error e →
    (streamLoop engine voice speed initial_silence idx cs).1 =
      ((List.range' idx (i - idx)).map fun j =>
        Frame.bytes (samples_to_pcm_bytes (audios j).samples)) ++
        [Frame.error (synthFailMsg e)] := by
  intro cs
  induction cs with
  | nil =>
    intro idx h1 h2 h3 h4
    simp at h2
  | cons c rest ih =>
    intro idx hle hlt hok herr
    by_cases hidx : idx = i
    · subst hidx
      have h0 : idx - idx = 0 := by omega
      rw [h0] at herr
      simp only [List.getD_cons_zero] at herr
      simp only [streamLoop, herr, h0, List.range'_zero, List.map_nil, List.nil_append]
    · have hlt2 : idx < i := lt_of_le_of_ne hle hidx
      have hcall : engine idx c voice speed (if idx = 0 then initial_silence else none) =
          .ok (audios idx) := by
        have := hok 0 (by simp) (by omega)
        simpa using this
      have hrng : i - idx = (i - (idx + 1)) + 1 := by omega
      have ihr := ih (idx + 1) (by omega)
        (by simp only [List.length_cons] at hlt; omega)
        (fun j hj hj2 => by
          have := hok (j + 1) (by simpa using hj) (by omega)
          rw [show idx + (j + 1) = idx + 1 + j by omega] at this
          simpa using this)
        (by
          have : (rest.getD (i - (idx + 1)) []) = ((c :: rest).getD (i - idx) []) := by
            rw [hrng]
            simp
          rw [this]
          exact herr)
      simp only [streamLoop, hcall]
      rw [ihr, hrng, List.range'_succ, List.map_cons, List.cons_append]

lemma streamLoop_calls_silence (engine : Engine) (voice : Str) (speed : F32)
    (initial_silence : Option Nat) :
    ∀ (cs : List Str) (idx j : Nat) (p : Str × Option Nat),
      (streamLoop engine voice speed initial_silence idx cs).2.get? j = some p →
      p.2 = if idx + j = 0 then initial_silence else none := by
  intro cs
  induction cs with
  | nil =>
    intro idx j p hp
    simp [streamLoop] at hp
  | cons c rest ih =>
    intro idx j p hp
    rcases hcall : engine idx c voice speed (if idx = 0 then initial_silence else none) with
      audio | e
    case error =>
      simp only [streamLoop, hcall] at hp
      cases j with
      | zero =>
        simp only [List.get?_cons_zero, Option.some_inj] at hp
        rw [← hp]
        simp
      | succ j2 => simp at hp
    case ok =>
      simp only [streamLoop, hcall] at hp
      cases j with
      | zero =>
        simp only [List.get?_cons_zero, Option.some_inj] at hp
        rw [← hp]
        simp
      | succ j2 =>
        simp only [List.get?_cons_succ] at hp
        have := ih (idx + 1) j2 p hp
        rw [this, if_neg (by omega), if_neg (by omega)]

/-- Claim C1: for every streaming request whose engine first fails at chunk
index i, the delivered frame sequence is exactly: the 44-byte WAV header
first (when WAV framing is used), then one audio frame per chunk 0..i-1 in
chunk-index order, then a single error frame carrying the engine's error
message, and nothing after it — no frame for any chunk with index >= i. -/
theorem stream_failfast (engine : Engine) (text voice : Str) (speed : F32)
    (initial_silence : Option Nat) (audios : Nat → Audio) (e : Str) (i : Nat)
    (hi : i < (chunk_text text).length)
    (hok : ∀ j, j < i →
      engine j ((chunk_text text).getD j []) voice speed
        (if j = 0 then initial_silence else none) = .ok (audios j))
    (herr : engine i ((chunk_text text).getD i []) voice speed
        (if i = 0 then initial_silence else none) = .error e) :
    create_wav_stream engine text voice speed initial_silence =
      Frame.bytes (create_wav_header_placeholder DEFAULT_SAMPLE_RATE 16 1) ::
        (((List.range i).map fun j =>
          Frame.bytes (samples_to_pcm_bytes (audios j).samples)) ++
          [Frame.error (synthFailMsg e)]) ∧
    create_pcm_stream engine text voice speed initial_silence =
      ((List.range i).map fun j =>
        Frame.bytes (samples_to_pcm_bytes (audios j).samples)) ++
        [Frame.error (synthFailMsg e)] := by
  have hmain := streamLoop_frames_fail engine voice speed initial_silence audios e i
    (chunk_text text) 0 (Nat.zero_le i) (by simpa using hi)
    (fun j hj hj2 => by simpa using hok j (by omega))
    (by simpa using herr)
  rw [← List.range_eq_range'] at hmain
  exact ⟨congrArg _ hmain, hmain⟩

/-- Claim C6: on both the PCM and WAV paths, every synthesis call after the
first passes no leading silence; only the call for chunk index 0 forwards
the request's initial-silence parameter. -/
theorem stream_silence_only_first (engine : Engine) (text voice : Str) (speed : F32)
    (initial_silence : Option Nat) (j : Nat) (p : Str × Option Nat) :
    ((create_pcm_stream_calls engine text voice speed initial_silence).get? j = some p →
      p.2 = if j = 0 then initial_silence else none) ∧
    ((create_wav_stream_calls engine text voice speed initial_silence).get? j = some p →
      p.2 = if j = 0 then initial_silence else none) := by
  constructor <;> intro hp <;>
    simpa using
      streamLoop_calls_silence engine voice speed initial_silence (chunk_text text) 0 j p hp

/-- Witness for C1: a 4-chunk request whose engine fails at chunk index 2
delivers header (WAV only), two audio frames, then the error frame. -/
theorem stream_failfast_witness :
    2 < (chunk_text "a. b. c. d.".toList).length ∧
    create_wav_stream witnessEngine "a. b. c. d.".toList [] F32.nan none =
      Frame.bytes (create_wav_header_placeholder DEFAULT_SAMPLE_RATE 16 1) ::
        (((List.range 2).map fun j =>
          Frame.bytes (samples_to_pcm_bytes ((fun _ : Nat => Audio.mk [] 24000) j).samples)) ++
          [Frame.error (synthFailMsg "boom".toList)]) ∧
    create_pcm_stream witnessEngine "a. b. c. d.".toList [] F32.nan none =
      ((List.range 2).map fun j =>
        Frame.bytes (samples_to_pcm_bytes ((fun _ : Nat => Audio.mk [] 24000) j).samples)) ++
        [Frame.error (synthFailMsg "boom".toList)] :=
  ⟨by decide,
    stream_failfast witnessEngine "a. b. c. d.".toList [] F32.nan none
      (fun _ => Audio.mk [] 24000) "boom".toList 2 (by decide)
      (fun j hj => by interval_cases j <;> rfl) rfl⟩

/-- Witness for C6: the second synthesis call of a concrete request carries
no silence argument even though the request asked for 5 samples of it. -/
theorem stream_silence_only_first_witness :
    (create_pcm_stream_calls witnessEngine "a. b. c. d.".toList [] F32.nan (some 5)).get? 1 =
      some ("b.".toList, none) ∧
    ("b.".toList, (none : Option Nat)).2 = if 1 = 0 then some 5 else none :=
  ⟨by decide,
    (stream_silence_only_first witnessEngine "a. b. c. d.".toList [] F32.nan (some 5) 1
      ("b.".toList, none)).1 (by decide)⟩


/-! ### String toolkit: split_whitespace, join, trim -/

lemma consWord_append (w : Str) (ws t : List Str) :
    consWord w (ws ++ t) = consWord w ws ++ t := by
  unfold consWord
  split <;> simp

lemma consWord_nil (ws : List Str) : consWord [] ws = ws := rfl

lemma splitWSAux_cons_of_ws {c : Char} (h : c.isWhitespace = true) (s : Str) :
    splitWSAux (c :: s) = ([], consWord (splitWSAux s).1 (splitWSAux s).2) := by
  simp only [splitWSAux, h, if_true]

lemma splitWSAux_cons_of_nows {c : Char} (h : c.isWhitespace = false) (s : Str) :
    splitWSAux (c :: s) = (c :: (splitWSAux s).1, (splitWSAux s).2) := by
  simp only [splitWSAux, h, Bool.false_eq_true, if_false]

lemma splitWS_cons_ws {c : Char} (h : c.isWhitespace = true) (s : Str) :
    splitWS (c :: s) = splitWS s := by
  unfold splitWS
  rw [splitWSAux_cons_of_ws h]
  exact consWord_nil _

lemma splitWSAux_append_ws {c : Char} (h : c.isWhitespace = true) (a b : Str) :
    splitWSAux (a ++ c :: b) = ((splitWSAux a).1, (splitWSAux a).2 ++ splitWS b) := by
  induction a with
  | nil =>
    rw [List.nil_append, splitWSAux_cons_of_ws h]
    rfl
  | cons d a ih =>
    rw [List.cons_append]
    by_cases hd : d.isWhitespace
    · rw [splitWSAux_cons_of_ws hd, splitWSAux_cons_of_ws hd, ih]
      simp only [consWord_append]
    · rw [splitWSAux_cons_of_nows (by simpa using hd), splitWSAux_cons_of_nows (by simpa using hd), ih]

lemma splitWS_append_ws {c : Char} (h : c.isWhitespace = true) (a b : Str) :
    splitWS (a ++ c :: b) = splitWS a ++ splitWS b := by
  unfold splitWS
  rw [splitWSAux_append_ws h]
  exact consWord_append _ _ _

lemma splitWSAux_nows (w : Str) (h : NoWS w) : splitWSAux w = (w, []) := by
  induction w with
  | nil => rfl
  | cons c t ih =>
    have hc : c.isWhitespace = false := h c (by simp)
    have ht : NoWS t := fun x hx => h x (by simp [hx])
    simp only [splitWSAux, ih ht, hc]
    rfl

lemma splitWS_single (w : Str) (h : GoodWord w) : splitWS w = [w] := by
  unfold splitWS
  rw [splitWSAux_nows w h.2]
  unfold consWord
  rw [if_neg h.1]

lemma splitWSAux_sound (s : Str) :
    NoWS (splitWSAux s).1 ∧ ∀ w ∈ (splitWSAux s).2, GoodWord w := by
  induction s with
  | nil => exact ⟨fun c hc => absurd hc (List.not_mem_nil c), fun w hw => absurd hw (List.not_mem_nil w)⟩
  | cons c t ih =>
    by_cases hc : c.isWhitespace
    · simp only [splitWSAux, if_pos hc]
      refine ⟨fun x hx => absurd hx (List.not_mem_nil x), fun w hw => ?_⟩
      unfold consWord at hw
      split at hw
      · exact ih.2 w hw
      · rcases List.mem_cons.mp hw with h | h
        · subst h
          exact ⟨by assumption, ih.1⟩
        · exact ih.2 w h
    · simp only [splitWSAux, if_neg hc]
      refine ⟨fun x hx => ?_, ih.2⟩
      rcases List.mem_cons.mp hx with h | h
      · subst h
        simpa using hc
      · exact ih.1 x h

lemma splitWS_good (s : Str) : ∀ w ∈ splitWS s, GoodWord w := by
  intro w hw
  unfold splitWS at hw
  unfold consWord at hw
  split at hw
  · exact (splitWSAux_sound s).2 w hw
  · rcases List.mem_cons.mp hw with h | h
    · subst h
      exact ⟨by assumption, (splitWSAux_sound s).1⟩
    · exact (splitWSAux_sound s).2 w h

lemma joinSpace_cons₂ (w v : Str) (ws : List Str) :
    joinSpace (w :: v :: ws) = w ++ ' ' :: joinSpace (v :: ws) := rfl

lemma joinSpace_ne_nil (g : List Str) (hg : g ≠ []) (h : ∀ w ∈ g, w ≠ []) :
    joinSpace g ≠ [] := by
  match g with
  | [w] => exact h w (by simp)
  | w :: v :: t =>
    rw [joinSpace_cons₂]
    exact List.append_ne_nil_of_left_ne_nil (h w (by simp)) _

lemma joinSpace_append (g₁ g₂ : List Str) (h₁ : g₁ ≠ []) (h₂ : g₂ ≠ []) :
    joinSpace (g₁ ++ g₂) = joinSpace g₁ ++ ' ' :: joinSpace g₂ := by
  induction g₁ with
  | nil => exact absurd rfl h₁
  | cons w t ih =>
    match t with
    | [] =>
      match g₂ with
      | v :: t₂ => rfl
    | w' :: t' =>
      have ih2 := ih (by simp)
      simp only [List.cons_append, joinSpace_cons₂]
      simp only [List.cons_append] at ih2
      rw [ih2]
      simp [List.append_assoc]

lemma splitWS_joinSpace (g : List Str) (h : ∀ w ∈ g, GoodWord w) :
    splitWS (joinSpace g) = g := by
  induction g with
  | nil => rfl
  | cons w t ih =>
    match t with
    | [] => exact splitWS_single w (h w (by simp))
    | v :: t' =>
      rw [joinSpace_cons₂, splitWS_append_ws (by decide),
        splitWS_single w (h w (by simp)), ih (fun x hx => h x (by simp [hx]))]
      rfl

lemma dropWhile_head_false {p : Char → Bool} {s : Str} {c : Char} {t : Str}
    (h : s.dropWhile p = c :: t) : p c = false := by
  induction s with
  | nil => simp at h
  | cons a s ih =>
    rw [List.dropWhile_cons] at h
    split at h
    · exact ih h
    · rename_i ha
      injection h with h1 h2
      subst h1
      simpa using ha

lemma getLast?_mem_custom {l : Str} {c : Char} (h : l.getLast? = some c) : c ∈ l := by
  rw [List.getLast?_eq_head?_reverse] at h
  rcases hw : l.reverse with _ | ⟨x, t⟩
  · rw [hw] at h
    simp at h
  · rw [hw] at h
    simp only [List.head?_cons, Option.some_inj] at h
    have hx : c ∈ l.reverse := by
      rw [hw, ← h]
      simp
    exact List.mem_reverse.mp hx

lemma head?_mem_custom {l : Str} {c : Char} (h : l.head? = some c) : c ∈ l := by
  rcases l with _ | ⟨x, t⟩
  · simp at h
  · simp only [List.head?_cons, Option.some_inj] at h
    simp [← h]

lemma trimStr_eq_self {s : Str} (hh : ∀ c, s.head? = some c → c.isWhitespace = false)
    (hl : ∀ c, s.getLast? = some c → c.isWhitespace = false) : trimStr s = s := by
  match s with
  | [] => rfl
  | c :: t =>
    have hc := hh c rfl
    unfold trimStr
    rw [List.dropWhile_cons, if_neg (by simp [hc])]
    rcases hrev : (c :: t).reverse with _ | ⟨d, r⟩
    · simp at hrev
    · have hd : d.isWhitespace = false := by
        apply hl
        rw [← List.head?_reverse, hrev]
        rfl
      rw [List.dropWhile_cons, if_neg (by simp [hd]), ← hrev, List.reverse_reverse]

lemma trimStr_append_ws {c : Char} (h : c.isWhitespace = true) (s : Str) :
    trimStr (s ++ [c]) = trimStr s := by
  unfold trimStr
  rw [List.dropWhile_append]
  split
  · rename_i hemp
    have hnil : s.dropWhile Char.isWhitespace = [] := by
      simpa [List.isEmpty_iff] using hemp
    rw [hnil, List.dropWhile_cons, if_pos h]
    rfl
  · rw [List.reverse_append, List.reverse_singleton, List.singleton_append,
      List.dropWhile_cons, if_pos h]

lemma trimStr_eq_nil (s : Str) (h : ∀ c ∈ s, c.isWhitespace = true) : trimStr s = [] := by
  unfold trimStr
  rw [List.dropWhile_eq_nil_iff.mpr h]
  rfl

lemma trimStr_head?_nows (s : Str) :
    ∀ c, (trimStr s).head? = some c → c.isWhitespace = false := by
  intro c hc
  unfold trimStr at hc
  rw [List.head?_reverse] at hc
  obtain ⟨t, ht⟩ :=
    List.dropWhile_suffix (l := (s.dropWhile Char.isWhitespace).reverse) Char.isWhitespace
  have hg : ((s.dropWhile Char.isWhitespace).reverse).getLast? = some c := by
    rw [← ht, List.getLast?_append, hc]
    rfl
  rw [List.getLast?_reverse] at hg
  rcases hD : s.dropWhile Char.isWhitespace with _ | ⟨d, r⟩
  · rw [hD] at hg
    simp at hg
  · rw [hD] at hg
    simp only [List.head?_cons, Option.some_inj] at hg
    rw [← hg]
    exact dropWhile_head_false hD

lemma trimStr_getLast?_nows (s : Str) :
    ∀ c, (trimStr s).getLast? = some c → c.isWhitespace = false := by
  intro c hc
  unfold trimStr at hc
  rw [List.getLast?_reverse] at hc
  rcases hD : ((s.dropWhile Char.isWhitespace).reverse).dropWhile Char.isWhitespace
    with _ | ⟨d, r⟩
  · rw [hD] at hc
    simp at hc
  · rw [hD] at hc
    simp only [List.head?_cons, Option.some_inj] at hc
    rw [← hc]
    exact dropWhile_head_false hD

lemma trimStr_trimStr (s : Str) : trimStr (trimStr s) = trimStr s :=
  trimStr_eq_self (trimStr_head?_nows s) (trimStr_getLast?_nows s)

lemma joinSpace_head?_nows (g : List Str) (h : ∀ w ∈ g, GoodWord w) :
    ∀ c, (joinSpace g).head? = some c → c.isWhitespace = false := by
  intro c hc
  match g with
  | [] => simp [joinSpace] at hc
  | w :: t =>
    have hw := h w (by simp)
    have hmem : c ∈ w := by
      match t with
      | [] => exact head?_mem_custom hc
      | v :: t2 =>
        rw [joinSpace_cons₂, List.head?_append] at hc
        rcases hwc : w.head? with _ | x
        · rcases hwn : w with _ | ⟨y, w2⟩
          · exact absurd hwn hw.1
          · rw [hwn] at hwc
            simp at hwc
        · rw [hwc] at hc
          simp only [Option.or_some, Option.some_inj] at hc
          exact head?_mem_custom (by rw [hwc, hc])
    exact hw.2 c hmem

lemma joinSpace_getLast?_nows (g : List Str) (h : ∀ w ∈ g, GoodWord w) :
    ∀ c, (joinSpace g).getLast? = some c → c.isWhitespace = false := by
  induction g with
  | nil => intro c hc; simp [joinSpace] at hc
  | cons w t ih =>
    intro c hc
    match t with
    | [] =>
      have hw := h w (by simp)
      exact hw.2 c (getLast?_mem_custom hc)
    | v :: t2 =>
      rw [joinSpace_cons₂, List.getLast?_append] at hc
      have hJ : joinSpace (v :: t2) ≠ [] :=
        joinSpace_ne_nil _ (by simp) (fun x hx => (h x (by simp [hx])).1)
      rcases hJc : joinSpace (v :: t2) with _ | ⟨j, J2⟩
      · exact absurd hJc hJ
      · rw [hJc, List.getLast?_cons_cons] at hc
        have hsome : (j :: J2).getLast? = some ((j :: J2).getLast (by simp)) :=
          List.getLast?_eq_getLast _ _
        rw [hsome] at hc
        simp only [Option.or_some, Option.some_inj] at hc
        apply ih (fun x hx => h x (by simp [hx])) c
        rw [hJc, hsome, hc]

lemma trimStr_joinSpace (g : List Str) (h : ∀ w ∈ g, GoodWord w) :
    trimStr (joinSpace g) = joinSpace g :=
  trimStr_eq_self (joinSpace_head?_nows g h) (joinSpace_getLast?_nows g h)

lemma joinSpace_nil : joinSpace [] = [] := rfl

lemma joinSpace_single (w : Str) : joinSpace [w] = w := rfl

lemma pass1Step_nilbuf (n wc : Nat) (word : Str) (chunks : List Str) :
    pass1Step n ⟨chunks, [], wc⟩ word =
      if endsWithChar word '.' || endsWithChar word '!' || endsWithChar word '?' ||
          endsWithChar word ':' || endsWithChar word ';' ||
          is_numbered_list_item word ||
          (endsWithChar word ',' && decide (wc + 1 ≥ n)) then
        ⟨pushTrimmed chunks word, [], 0⟩
      else ⟨chunks, word, wc + 1⟩ := by
  unfold pass1Step
  simp only [List.isEmpty_nil, Bool.not_true, Bool.and_false, Bool.false_eq_true, if_false,
    if_true, List.nil_append, Bool.false_or, Bool.or_false]

lemma pass1Step_numbered (n wc : Nat) (word : Str) (chunks : List Str) (d : Char) (rest : Str)
    (hnum : is_numbered_list_item word = true) :
    pass1Step n ⟨chunks, d :: rest, wc⟩ word =
      ⟨pushTrimmed (pushTrimmed chunks ((d :: rest) ++ [' '])) word, [], 0⟩ := by
  unfold pass1Step
  simp only [hnum, List.isEmpty_cons, Bool.not_false, Bool.and_true, Bool.true_and,
    Bool.or_true, Bool.true_or, if_true]
  rfl

lemma pass1Step_consbuf (n wc : Nat) (word : Str) (chunks : List Str) (d : Char) (rest : Str)
    (hnum : is_numbered_list_item word = false) :
    pass1Step n ⟨chunks, d :: rest, wc⟩ word =
      if endsWithChar word '.' || endsWithChar word '!' || endsWithChar word '?' ||
          endsWithChar word ':' || endsWithChar word ';' ||
          (endsWithChar word ',' && decide (wc + 1 ≥ n)) then
        ⟨pushTrimmed chunks (((d :: rest) ++ [' ']) ++ word), [], 0⟩
      else ⟨chunks, ((d :: rest) ++ [' ']) ++ word, wc + 1⟩ := by
  unfold pass1Step
  simp only [hnum, List.isEmpty_cons, Bool.false_and, Bool.false_or, Bool.or_false,
    Bool.and_false, Bool.false_eq_true, if_false]

lemma pushTrimmed_join (chunks : List Str) (g : List Str) (hg : g ≠ [])
    (h : ∀ w ∈ g, GoodWord w) : pushTrimmed chunks (joinSpace g) = chunks ++ [joinSpace g] := by
  unfold pushTrimmed
  rw [trimStr_joinSpace g h, if_neg (joinSpace_ne_nil g hg (fun w hw => (h w hw).1))]

lemma pushTrimmed_join_sp (chunks : List Str) (g : List Str) (hg : g ≠ [])
    (h : ∀ w ∈ g, GoodWord w) :
    pushTrimmed chunks (joinSpace g ++ [' ']) = chunks ++ [joinSpace g] := by
  unfold pushTrimmed
  rw [trimStr_append_ws (by decide), trimStr_joinSpace g h,
    if_neg (joinSpace_ne_nil g hg (fun w hw => (h w hw).1))]

lemma joinSpace_concat_sp (g : List Str) (w : Str) (hg : g ≠ []) :
    (joinSpace g ++ [' ']) ++ w = joinSpace (g ++ [w]) := by
  rw [joinSpace_append g [w] hg (by simp), joinSpace_single, List.append_assoc,
    List.singleton_append]

lemma pass1Step_inv (n wc : Nat) (G : List (List Str)) (g : List Str) (word : Str)
    (hG : ∀ x ∈ G, x ≠ [] ∧ ∀ w ∈ x, GoodWord w)
    (hg : ∀ w ∈ g, GoodWord w)
    (hword : GoodWord word) :
    ∃ (G2 : List (List Str)) (g2 : List Str) (wc2 : Nat),
      (∀ x ∈ G2, x ≠ [] ∧ ∀ w ∈ x, GoodWord w) ∧ (∀ w ∈ g2, GoodWord w) ∧
      G2.flatten ++ g2 = G.flatten ++ g ++ [word] ∧
      pass1Step n ⟨G.map joinSpace, joinSpace g, wc⟩ word =
        ⟨G2.map joinSpace, joinSpace g2, wc2⟩ := by
  have hsingle : ∀ x ∈ [[word]], x ≠ [] ∧ ∀ w ∈ x, GoodWord w := by
    intro x hx
    simp only [List.mem_singleton] at hx
    subst hx
    exact ⟨by simp, fun w hw => by simp only [List.mem_singleton] at hw; subst hw; exact hword⟩
  rcases hgnil : g with _ | ⟨d0, grest⟩ <;> subst hgnil
  · -- empty buffer
    have hsplit : pass1Step n ⟨G.map joinSpace, joinSpace [], wc⟩ word =
          ⟨pushTrimmed (G.map joinSpace) word, [], 0⟩ ∨
        pass1Step n ⟨G.map joinSpace, joinSpace [], wc⟩ word =
          ⟨G.map joinSpace, word, wc + 1⟩ := by
      rw [joinSpace_nil, pass1Step_nilbuf]
      split
      · exact Or.inl rfl
      · exact Or.inr rfl
    have hpush : pushTrimmed (G.map joinSpace) word = (G ++ [[word]]).map joinSpace := by
      have := pushTrimmed_join (G.map joinSpace) [word] (by simp)
        (fun w hw => by simp only [List.mem_singleton] at hw; subst hw; exact hword)
      rw [joinSpace_single] at this
      rw [this, List.map_append]
      rfl
    rcases hsplit with h | h
    · refine ⟨G ++ [[word]], [], 0, ?_, by simp, by simp, ?_⟩
      · intro x hx
        rcases List.mem_append.mp hx with hx | hx
        · exact hG x hx
        · exact hsingle x hx
      · rw [h, hpush]
        rfl
    · refine ⟨G, [word], wc + 1, hG, ?_, by simp, ?_⟩
      · intro w hw
        simp only [List.mem_singleton] at hw
        subst hw
        exact hword
      · rw [h, joinSpace_single]
  · -- non-empty buffer g = d0 :: grest
    have hgne : (d0 :: grest) ≠ [] := by simp
    have hJne : joinSpace (d0 :: grest) ≠ [] :=
      joinSpace_ne_nil _ hgne (fun w hw => (hg w hw).1)
    obtain ⟨d, rest, hJ⟩ := List.exists_cons_of_ne_nil hJne
    · by_cases hnum : is_numbered_list_item word = true
      · -- numbered-list pre-flush, then unconditional post-flush
        refine ⟨G ++ [d0 :: grest] ++ [[word]], [], 0, ?_, by simp, by simp, ?_⟩
        · intro x hx
          rcases List.mem_append.mp hx with hx | hx
          · rcases List.mem_append.mp hx with hx | hx
            · exact hG x hx
            · simp only [List.mem_singleton] at hx
              subst hx
              exact ⟨hgne, hg⟩
          · exact hsingle x hx
        · rw [hJ, pass1Step_numbered n wc word (G.map joinSpace) d rest hnum, ← hJ,
            pushTrimmed_join_sp (G.map joinSpace) (d0 :: grest) hgne hg]
          have hp2 : pushTrimmed (G.map joinSpace ++ [joinSpace (d0 :: grest)]) word =
              G.map joinSpace ++ [joinSpace (d0 :: grest)] ++ [word] := by
            have := pushTrimmed_join (G.map joinSpace ++ [joinSpace (d0 :: grest)]) [word]
              (by simp)
              (fun w hw => by simp only [List.mem_singleton] at hw; subst hw; exact hword)
            rw [joinSpace_single] at this
            exact this
          rw [hp2]
          simp [joinSpace_single, joinSpace_nil]
      · -- no numbered break
        have hnum2 : is_numbered_list_item word = false := by
          simpa using hnum
        have hcat : ((joinSpace (d0 :: grest) ++ [' ']) ++ word) =
            joinSpace ((d0 :: grest) ++ [word]) :=
          joinSpace_concat_sp (d0 :: grest) word hgne
        have hcatgood : ∀ w ∈ (d0 :: grest) ++ [word], GoodWord w := by
          intro w hw
          rcases List.mem_append.mp hw with hw | hw
          · exact hg w hw
          · simp only [List.mem_singleton] at hw
            subst hw
            exact hword
        have hsplit : pass1Step n ⟨G.map joinSpace, joinSpace (d0 :: grest), wc⟩ word =
              ⟨pushTrimmed (G.map joinSpace) (joinSpace ((d0 :: grest) ++ [word])), [], 0⟩ ∨
            pass1Step n ⟨G.map joinSpace, joinSpace (d0 :: grest), wc⟩ word =
              ⟨G.map joinSpace, joinSpace ((d0 :: grest) ++ [word]), wc + 1⟩ := by
          rw [hJ, pass1Step_consbuf n wc word (G.map joinSpace) d rest hnum2, ← hJ]
          rw [hcat]
          split
          · exact Or.inl rfl
          · exact Or.inr rfl
        rcases hsplit with h | h
        · refine ⟨G ++ [(d0 :: grest) ++ [word]], [], 0, ?_, by simp, by simp, ?_⟩
          · intro x hx
            rcases List.mem_append.mp hx with hx | hx
            · exact hG x hx
            · simp only [List.mem_singleton] at hx
              subst hx
              exact ⟨by simp, hcatgood⟩
          · rw [h, pushTrimmed_join (G.map joinSpace) ((d0 :: grest) ++ [word]) (by simp)
              hcatgood]
            simp [joinSpace_nil]
        · refine ⟨G, (d0 :: grest) ++ [word], wc + 1, hG, hcatgood, by simp, h⟩

lemma pass1Loop_inv (n : Nat) (ws : List Str) :
    ∀ (G : List (List Str)) (g : List Str) (wc : Nat),
    (∀ x ∈ G, x ≠ [] ∧ ∀ w ∈ x, GoodWord w) → (∀ w ∈ g, GoodWord w) →
    (∀ w ∈ ws, GoodWord w) →
    ∃ (G2 : List (List Str)) (g2 : List Str) (wc2 : Nat),
      (∀ x ∈ G2, x ≠ [] ∧ ∀ w ∈ x, GoodWord w) ∧ (∀ w ∈ g2, GoodWord w) ∧
      G2.flatten ++ g2 = G.flatten ++ g ++ ws ∧
      pass1Loop n ⟨G.map joinSpace, joinSpace g, wc⟩ ws =
        ⟨G2.map joinSpace, joinSpace g2, wc2⟩ := by
  induction ws with
  | nil =>
    intro G g wc hG hg _
    exact ⟨G, g, wc, hG, hg, by simp, rfl⟩
  | cons w ws ih =>
    intro G g wc hG hg hws
    obtain ⟨G1, g1, wc1, hG1, hg1, heq1, hstep⟩ :=
      pass1Step_inv n wc G g w hG hg (hws w (by simp))
    obtain ⟨G2, g2, wc2, hG2, hg2, heq2, hloop⟩ :=
      ih G1 g1 wc1 hG1 hg1 (fun x hx => hws x (by simp [hx]))
    refine ⟨G2, g2, wc2, hG2, hg2, ?_, ?_⟩
    · rw [heq2, heq1]
      simp [List.append_assoc]
    · show pass1Loop n (pass1Step n ⟨G.map joinSpace, joinSpace g, wc⟩ w) ws = _
      rw [hstep]
      exact hloop

lemma pass1_chunksOf (text : Str) (n : Nat) : ChunksOf (pass1 text n) (splitWS text) := by
  obtain ⟨G2, g2, wc2, hG2, hg2, heq, hloop⟩ :=
    pass1Loop_inv n (splitWS text) [] [] 0 (by simp) (by simp) (splitWS_good text)
  unfold pass1
  rw [show (⟨[], [], 0⟩ : Pass1State) = ⟨List.map joinSpace [], joinSpace [], 0⟩ from rfl,
    hloop]
  simp only
  rcases g2 with _ | ⟨x, xs⟩
  · refine ⟨G2, hG2, by simpa using heq, ?_⟩
    unfold pushTrimmed
    rw [joinSpace_nil, if_pos (show trimStr [] = [] from rfl)]
  · refine ⟨G2 ++ [x :: xs], ?_, ?_, ?_⟩
    · intro y hy
      rcases List.mem_append.mp hy with hy | hy
      · exact hG2 y hy
      · simp only [List.mem_singleton] at hy
        subst hy
        exact ⟨by simp, hg2⟩
    · simpa using heq
    · rw [pushTrimmed_join (G2.map joinSpace) (x :: xs) (by simp) hg2, List.map_append]
      rfl

lemma ChunksOf_append {cs1 cs2 ws1 ws2 : List Str}
    (h1 : ChunksOf cs1 ws1) (h2 : ChunksOf cs2 ws2) :
    ChunksOf (cs1 ++ cs2) (ws1 ++ ws2) := by
  obtain ⟨G1, hG1, hf1, hm1⟩ := h1
  obtain ⟨G2, hG2, hf2, hm2⟩ := h2
  refine ⟨G1 ++ G2, ?_, ?_, ?_⟩
  · intro x hx
    rcases List.mem_append.mp hx with hx | hx
    · exact hG1 x hx
    · exact hG2 x hx
  · rw [List.flatten_append, hf1, hf2]
  · rw [List.map_append, hm1, hm2]

lemma ChunksOf_single (g : List Str) (hg : g ≠ []) (h : ∀ w ∈ g, GoodWord w) :
    ChunksOf [joinSpace g] g := by
  refine ⟨[g], ?_, by simp, by simp⟩
  intro x hx
  simp only [List.mem_singleton] at hx
  subst hx
  exact ⟨hg, h⟩

lemma ChunksOf_cons (g : List Str) (cs ws : List Str) (hg : g ≠ [])
    (h : ∀ w ∈ g, GoodWord w) (hC : ChunksOf cs ws) :
    ChunksOf (joinSpace g :: cs) (g ++ ws) := by
  obtain ⟨G, hG, hf, hm⟩ := hC
  refine ⟨g :: G, ?_, by simp [hf], by simp [hm]⟩
  intro x hx
  rcases List.mem_cons.mp hx with hx | hx
  · subst hx
    exact ⟨hg, h⟩
  · exact hG x hx

lemma split_long_chunk_go_chunksOf (fuel : Nat) :
    ∀ (g : List Str) (t : Nat) (p : Bool), g ≠ [] → (∀ w ∈ g, GoodWord w) →
    ChunksOf (split_long_chunk_go fuel (joinSpace g) t p) g := by
  induction fuel with
  | zero =>
    intro g t p hg h
    exact ChunksOf_single g hg h
  | succ fuel ih =>
    intro g t p hg h
    have hws : splitWS (joinSpace g) = g := splitWS_joinSpace g h
    have hrec : ∀ pos, 3 ≤ pos → pos < g.length →
        ChunksOf (split_long_chunk_go fuel (joinSpace (g.take pos)) t p ++
          split_long_chunk_go fuel (joinSpace (g.drop pos)) t p) g := by
      intro pos h3 hlen
      have h1 := ih (g.take pos) t p
        (by
          have : (g.take pos).length = min pos g.length := List.length_take ..
          intro hnil
          rw [hnil] at this
          simp at this
          omega)
        (fun w hw => h w (List.take_subset pos g hw))
      have h2 := ih (g.drop pos) t p
        (by
          have : (g.drop pos).length = g.length - pos := List.length_drop ..
          intro hnil
          rw [hnil] at this
          simp at this
          omega)
        (fun w hw => h w (List.drop_subset pos g hw))
      have := ChunksOf_append h1 h2
      rwa [List.take_append_drop] at this
    simp only [split_long_chunk_go, hws]
    split
    · exact ChunksOf_single g hg h
    · split
      · rename_i pos heq
        have hguard : 3 ≤ pos ∧ pos < g.length := by
          rcases hp : p with _ | _
          · rw [hp] at heq
            simp at heq
          · rw [hp] at heq
            simp only [if_true] at heq
            rcases hf : find_closest_punctuation g (g.length / 2) with _ | q
            · rw [hf] at heq
              simp at heq
            · rw [hf] at heq
              have heq2 : (if 3 ≤ q ∧ q < g.length then some q else none) = some pos := heq
              by_cases hq : 3 ≤ q ∧ q < g.length
              · rw [if_pos hq, Option.some_inj] at heq2
                subst heq2
                exact hq
              · rw [if_neg hq] at heq2
                simp at heq2
        exact hrec pos hguard.1 hguard.2
      · split
        · rename_i pos heq
          split
          · rename_i hguard
            exact hrec pos hguard.1 hguard.2
          · exact ChunksOf_single g hg h
        · exact ChunksOf_single g hg h

lemma pass2Go_chunksOf (G : List (List Str)) :
    ∀ i : Nat, (∀ g ∈ G, g ≠ [] ∧ ∀ w ∈ g, GoodWord w) →
    ChunksOf (pass2Go i (G.map joinSpace)) G.flatten := by
  induction G with
  | nil =>
    intro i _
    exact ⟨[], by simp, by simp, rfl⟩
  | cons g G ih =>
    intro i hG
    have h1 : ChunksOf (split_long_chunk_with_depth (joinSpace g) 12 (decide (i < 2)) 0) g := by
      unfold split_long_chunk_with_depth
      exact split_long_chunk_go_chunksOf 3 g 12 (decide (i < 2)) (hG g (by simp)).1
        (hG g (by simp)).2
    have h2 := ih (i + 1) (fun x hx => hG x (by simp [hx]))
    have := ChunksOf_append h1 h2
    simpa [List.flatten_cons] using this

lemma carryOverStep_chunksOf (Grest : List (List Str)) :
    ∀ (g : List Str), g ≠ [] → (∀ w ∈ g, GoodWord w) →
    (∀ x ∈ Grest, x ≠ [] ∧ ∀ w ∈ x, GoodWord w) →
    ChunksOf (carryOverStep (joinSpace g) (Grest.map joinSpace)) (g ++ Grest.flatten) := by
  induction Grest with
  | nil =>
    intro g hg h _
    have := ChunksOf_single g hg h
    simpa using this
  | cons g2 Grest ih =>
    intro g hg h hG
    have hg2 := hG g2 (by simp)
    have hwords : splitWS (trimStr (joinSpace g)) = g := by
      rw [trimStr_joinSpace g h, splitWS_joinSpace g h]
    have hlast : g.getLast? = some (g.getLast hg) := List.getLast?_eq_getLast g hg
    show ChunksOf (carryOverStep (joinSpace g) (joinSpace g2 :: Grest.map joinSpace)) _
    rw [carryOverStep.eq_def]
    simp only [hwords, hlast]
    by_cases hcond : toLowerStr (g.getLast hg) ∈ BREAK_WORDS ∧ g.length > 1
    · rw [if_pos hcond]
      -- moved word: new next chunk is joinSpace (g.getLast :: g2)
      have hnext : g.getLast hg ++ ' ' :: joinSpace g2 = joinSpace (g.getLast hg :: g2) := by
        rcases g2 with _ | ⟨y, ys⟩
        · exact absurd rfl hg2.1
        · rw [joinSpace_cons₂]
      rw [hnext]
      have hdlne : g.dropLast ≠ [] := by
        have hlen : g.dropLast.length = g.length - 1 := List.length_dropLast g
        intro hnil
        rw [hnil] at hlen
        simp at hlen
        omega
      have hdlgood : ∀ w ∈ g.dropLast, GoodWord w :=
        fun w hw => h w (List.dropLast_subset g hw)
      have hihgood : ∀ w ∈ g.getLast hg :: g2, GoodWord w := by
        intro w hw
        rcases List.mem_cons.mp hw with hw | hw
        · subst hw
          exact h _ (List.getLast_mem hg)
        · exact hg2.2 w hw
      have hstep := ih (g.getLast hg :: g2) (by simp) hihgood
        (fun x hx => hG x (by simp [hx]))
      have := ChunksOf_cons g.dropLast _ _ hdlne hdlgood hstep
      have harr : g.dropLast ++ (g.getLast hg :: (g2 ++ Grest.flatten)) =
          g ++ (g2 ++ Grest.flatten) := by
        rw [List.append_cons, List.dropLast_append_getLast hg]
      simp only [List.cons_append] at this
      rw [harr] at this
      simpa using this
    · rw [if_neg hcond]
      have hstep := ih g2 hg2.1 hg2.2 (fun x hx => hG x (by simp [hx]))
      have := ChunksOf_cons g _ _ hg h hstep
      simpa using this

lemma all_ws_of_splitWS_nil (s : Str) (h : splitWS s = []) :
    ∀ c ∈ s, c.isWhitespace = true := by
  induction s with
  | nil => simp
  | cons c t ih =>
    by_cases hc : c.isWhitespace = true
    · rw [splitWS_cons_ws hc] at h
      intro x hx
      rcases List.mem_cons.mp hx with hx | hx
      · subst hx
        exact hc
      · exact ih h x hx
    · exfalso
      unfold splitWS at h
      rw [splitWSAux_cons_of_nows (by simpa using hc)] at h
      unfold consWord at h
      rw [if_neg (by simp)] at h
      simp at h

lemma split_text_chunksOf (text : Str) (n : Nat) :
    ChunksOf (split_text_into_speech_chunks text n) (splitWS text) := by
  obtain ⟨G, hG, hflat, hmap⟩ := pass1_chunksOf text n
  have h2 : ChunksOf (pass2Go 0 (pass1 text n)) (splitWS text) := by
    rw [hmap, ← hflat]
    exact pass2Go_chunksOf G 0 hG
  obtain ⟨G2, hG2, hflat2, hmap2⟩ := h2
  have h3 : ChunksOf (carryOverAll (pass2Go 0 (pass1 text n))) (splitWS text) := by
    rw [hmap2, ← hflat2]
    rcases G2 with _ | ⟨g, G2r⟩
    · exact ⟨[], by simp, by simp, rfl⟩
    · have hg := hG2 g (by simp)
      have := carryOverStep_chunksOf G2r g hg.1 hg.2 (fun x hx => hG2 x (by simp [hx]))
      simpa using this
  obtain ⟨G3, hG3, hflat3, hmap3⟩ := h3
  refine ⟨G3, hG3, hflat3, ?_⟩
  unfold split_text_into_speech_chunks
  simp only
  rw [hmap3]
  rw [List.filter_eq_self.mpr]
  intro c hc
  obtain ⟨gc, hgc, rfl⟩ := List.mem_map.mp hc
  have hgood := hG3 gc hgc
  rw [trimStr_joinSpace gc hgood.2]
  simpa [List.isEmpty_iff] using joinSpace_ne_nil gc hgood.1 (fun w hw => (hgood.2 w hw).1)

lemma chunk_text_chunksOf (text : Str) : ChunksOf (chunk_text text) (splitWS text) := by
  obtain ⟨G, hG, hflat, hmap⟩ := split_text_chunksOf text 10
  unfold chunk_text
  simp only
  rw [hmap]
  rcases G with _ | ⟨g, Gr⟩
  · -- empty: splitWS text = [] so the trim fallback is dead
    have hnil : splitWS text = [] := by simpa using hflat.symm
    have htrim : trimStr text = [] := trimStr_eq_nil text (all_ws_of_splitWS_nil text hnil)
    rw [htrim]
    simp only [List.map_nil, List.isEmpty_nil, List.isEmpty_nil, Bool.not_true,
      Bool.and_false, Bool.false_eq_true, if_false]
    exact ⟨[], by simp, by simpa using hflat, rfl⟩
  · simp only [List.map_cons, List.isEmpty_cons, Bool.false_and, Bool.false_eq_true,
      if_false]
    exact ⟨g :: Gr, hG, hflat, rfl⟩

lemma joinSpace_map (G : List (List Str)) (hG : ∀ g ∈ G, g ≠ []) :
    joinSpace (G.map joinSpace) = joinSpace G.flatten := by
  induction G with
  | nil => rfl
  | cons g G ih =>
    rcases G with _ | ⟨g2, Gr⟩
    · simp [joinSpace_single]
    · have hne : (g2 :: Gr).flatten ≠ [] := by
        have hg2 : g2 ≠ [] := hG g2 (by simp)
        simp only [List.flatten_cons]
        exact List.append_ne_nil_of_left_ne_nil hg2 _
      rw [List.map_cons, List.map_cons, joinSpace_cons₂, ← List.map_cons,
        ih (fun x hx => hG x (by simp [hx]))]
      conv_rhs => rw [List.flatten_cons]
      rw [joinSpace_append g (g2 :: Gr).flatten (hG g (by simp)) hne]

/-- Claim C2: for every input text, the chunk sequence returned by
segmentation, rejoined with single spaces, equals the whitespace-normalized
original text (its whitespace-separated words joined with single spaces):
no word is dropped, duplicated or reordered by the primary split, the
recursive rebalancing, or the break-word carry-over. -/
theorem chunk_text_rejoin (text : Str) :
    joinSpace (chunk_text text) = joinSpace (splitWS text) := by
  obtain ⟨G, hG, hflat, hmap⟩ := chunk_text_chunksOf text
  rw [hmap, joinSpace_map G (fun g hg => (hG g hg).1), hflat]

/-- Claim C7: every chunk returned by segmentation is non-empty after
trimming whitespace. -/
theorem chunk_text_no_blank (text : Str) (c : Str) (hc : c ∈ chunk_text text) :
    trimStr c ≠ [] := by
  obtain ⟨G, hG, hflat, hmap⟩ := chunk_text_chunksOf text
  rw [hmap] at hc
  obtain ⟨g, hg, rfl⟩ := List.mem_map.mp hc
  have hgood := hG g hg
  rw [trimStr_joinSpace g hgood.2]
  exact joinSpace_ne_nil g hgood.1 (fun w hw => (hgood.2 w hw).1)

/-- Witness for C7: the single chunk of a concrete input is non-blank. -/
theorem chunk_text_no_blank_witness :
    "hello".toList ∈ chunk_text "hello".toList ∧ trimStr "hello".toList ≠ [] :=
  ⟨by decide, chunk_text_no_blank "hello".toList "hello".toList (by decide)⟩
